import Mathlib

/-!
Verification development for the expression-cleaning (lowering) stage of a
C-front-end-to-goto-program converter: `needs_cleaning`, `rewrite_boolean`,
`clean_expr`, `clean_expr_address_of`, `remove_gcc_conditional_expression`
and `make_compound_literal`, shallowly embedded over a rose tree of tagged
expression nodes.  The collaborators that live outside the lowering file
(symbol allocator, statement converter, generic side effect removal,
function call removal, statement expression removal, branch-and-join
builder, scope stack) are modelled from their interface contracts.
-/

set_option maxHeartbeats 1000000

/-- Semantic types carried by expression nodes: boolean, `void` (empty),
machine integer, and an opaque remainder of the type universe. -/
inductive Ty where
  | bool
  | empty
  | int
  | other (n : Nat)
  deriving DecidableEq, Repr

/-- The sub-tag of a side-effect node (`statement` of `side_effect_exprt`). -/
inductive SeKind where
  | gccConditional
  | statementExpression
  | assign
  | functionCall
  | other (n : Nat)
  deriving DecidableEq, Repr

/-- The operator/kind tag of an expression node (`exprt::id()`).  Leaves
carry their payload in the tag: symbol references carry a numeric name,
boolean constants their value. -/
inductive EId where
  | and
  | or
  | implies
  | ifE
  | comma
  | typecast
  | sideEffect (k : SeKind)
  | compoundLiteral
  | addressOf
  | index
  | dereference
  | fa
  | ex
  | stringConstant
  | symbol (name : Nat)
  | boolConst (b : Bool)
  | intConst (n : Nat)
  | nil
  | other (n : Nat)
  deriving DecidableEq, Repr

/-- Storage-duration context of the enclosing converter
(`goto_convertt::lifetime`). -/
inductive Lifetime where
  | automaticLocal
  | threadLocal
  | staticGlobal
  deriving DecidableEq, Repr

mutual
/-- An expression node: kind tag, ordered children, semantic type and an
optional source location. -/
inductive Expr where
  | mk (eid : EId) (ops : ExprList) (ty : Ty) (loc : Option Nat)

/-- The ordered children of an expression node. -/
inductive ExprList where
  | nil
  | cons (head : Expr) (tail : ExprList)
end

def Expr.eid : Expr → EId
  | .mk i _ _ _ => i

def Expr.ops : Expr → ExprList
  | .mk _ o _ _ => o

def Expr.ty : Expr → Ty
  | .mk _ _ t _ => t

def Expr.loc : Expr → Option Nat
  | .mk _ _ _ l => l

/-- One-element child list. -/
def L1 (a : Expr) : ExprList := .cons a .nil

/-- Two-element child list. -/
def L2 (a b : Expr) : ExprList := .cons a (.cons b .nil)

/-- Three-element child list. -/
def L3 (a b c : Expr) : ExprList := .cons a (.cons b (.cons c .nil))

/-- The boolean constant `true` (`true_exprt`). -/
def trueE : Expr := .mk (.boolConst true) .nil .bool none

/-- The boolean constant `false` (`false_exprt`). -/
def falseE : Expr := .mk (.boolConst false) .nil .bool none

/-- The absent expression (`nil_exprt`). -/
def nilE : Expr := .mk .nil .nil (.other 0) none

/-- `exprt::is_nil`: the node's id is the nil id. -/
def Expr.isNil : Expr → Bool
  | .mk .nil _ _ _ => true
  | _ => false

/-- Kinds that `needs_cleaning` reports directly: side effect, compound
literal, comma. -/
def isHitId : EId → Bool
  | .sideEffect _ => true
  | .compoundLiteral => true
  | .comma => true
  | _ => false

/-- Quantifier kinds (`ID_forall`, `ID_exists`). -/
def isQuantId : EId → Bool
  | .fa => true
  | .ex => true
  | _ => false

mutual
/-- Returns `true` for expressions that may change the program state:
the node itself, or a subexpression found by recursion that does not
descend below a quantifier, is a side effect, compound literal or comma. -/
def needs_cleaning : Expr → Bool
  | .mk eid ops _ _ =>
    isHitId eid || (!isQuantId eid && anyNeedsCleaning ops)

/-- `needs_cleaning` over a child list, short-circuiting left to right. -/
def anyNeedsCleaning : ExprList → Bool
  | .nil => false
  | .cons e es => needs_cleaning e || anyNeedsCleaning es
end

mutual
/-- `has_subexpr(expr, ID_side_effect)`: some node of the tree (the root
included, quantifier bodies included) is a side effect. -/
def has_subexpr_side_effect : Expr → Bool
  | .mk eid ops _ _ =>
    (match eid with
     | .sideEffect _ => true
     | _ => false) || anySubexprSideEffect ops

/-- `has_subexpr_side_effect` over a child list. -/
def anySubexprSideEffect : ExprList → Bool
  | .nil => false
  | .cons e es => has_subexpr_side_effect e || anySubexprSideEffect es
end

mutual
/-- `exprt::find_source_location`: the node's own location if set, else the
first location found in a left-to-right recursive scan of the children. -/
def find_source_location : Expr → Option Nat
  | .mk _ ops _ loc =>
    match loc with
    | some l => some l
    | none => findSourceLocationL ops

/-- `find_source_location` over a child list. -/
def findSourceLocationL : ExprList → Option Nat
  | .nil => none
  | .cons e es =>
    match find_source_location e with
    | some l => some l
    | none => findSourceLocationL es
end

mutual
/-- Node count of an expression tree (recursion depth bound). -/
def Expr.sz : Expr → Nat
  | .mk _ ops _ _ => 1 + ExprList.szL ops

/-- Node count of a child list. -/
def ExprList.szL : ExprList → Nat
  | .nil => 0
  | .cons e es => Expr.sz e + ExprList.szL es
end

/-- `skip_typecast` with an explicit recursion bound. -/
def skipTypecastF : Nat → Expr → Expr
  | 0, e => e
  | n + 1, e =>
    match e with
    | .mk .typecast (.cons op .nil) _ _ => skipTypecastF n op
    | _ => e

/-- `skip_typecast`: strip every outer typecast wrapper. -/
def skip_typecast (e : Expr) : Expr := skipTypecastF e.sz e

/-- `typecast_exprt::conditional_cast`: cast only when the type differs. -/
def conditional_cast (e : Expr) (t : Ty) : Expr :=
  if e.ty = t then e else .mk .typecast (L1 e) t none

/-- Every operand is boolean (the per-operand `DATA_INVARIANT` of the
`rewrite_boolean` loop). -/
def allBoolean : ExprList → Bool
  | .nil => true
  | .cons e es => if e.ty = Ty.bool then allBoolean es else false

/-- The `a && b` chain of `rewrite_boolean`: starting from `true_exprt`,
fold over the operands from the last one leftward, wrapping the accumulator
as `if_exprt(op, tmp, false_exprt())` (whose type is the accumulator's). -/
def foldAnd : ExprList → Expr
  | .nil => trueE
  | .cons a rest =>
    let tmp := foldAnd rest
    .mk .ifE (L3 a tmp falseE) tmp.ty none

/-- The `a || b` chain of `rewrite_boolean`: starting from `false_exprt`,
fold from the last operand leftward, wrapping as
`if_exprt(op, true_exprt(), tmp)` (whose type is `true_exprt`'s). -/
def foldOr : ExprList → Expr
  | .nil => falseE
  | .cons a rest =>
    let tmp := foldOr rest
    .mk .ifE (L3 a trueE tmp) trueE.ty none

/-- `rewrite_boolean`: re-write `and`/`or`/`implies` nodes into `?:`.
The preconditions (node id, node boolean-typed, operands boolean, implies
binary) abort the conversion in the source; violating them yields `none`. -/
def rewrite_boolean (e : Expr) : Option Expr :=
  match e with
  | .mk eid ops ty _ =>
    if ty = Ty.bool then
      match eid with
      | .implies =>
        match ops with
        | .cons a (.cons b .nil) => some (.mk .ifE (L3 a b trueE) .bool none)
        | _ => none
      | .and => if allBoolean ops then some (foldAnd ops) else none
      | .or => if allBoolean ops then some (foldOr ops) else none
      | _ => none
    else none

/-- A primitive instruction of a goto-program fragment.  Instructions
produced by external collaborators appear as single opaque `expand*`
instructions; the branch-and-join construct built by the branch builder is
abstracted as one structured instruction. -/
inductive Instr where
  | decl (n : Nat) (ty : Ty)
  | assign (lhs rhs : Expr)
  | exprStmt (e : Expr)
  | ifThenElse (cond : Expr) (tbr fbr : List Instr)
  | expandSE (e : Expr) (used addrOf : Bool)
  | expandStmtExpr (e : Expr) (used : Bool)
  | expandCall (e : Expr)

/-- Converter state threaded through lowering: the fresh-temporary counter,
the record of allocated temporaries (name, type, static storage duration),
the scope-exit (dead) markers registered with the scope stack, and the
enclosing storage-duration context. -/
structure St where
  counter : Nat
  symbols : List (Nat × Ty × Bool)
  scopeExits : List Nat
  lifetime : Lifetime

/-- Modelled from the spec: the symbol allocator and statement converter
behind `new_tmp_symbol` (declared outside the lowering file).  Per the
interface contract, it returns a guaranteed-unique fresh temporary of the
given type, registered (declared into the requesting fragment) before
use. -/
def new_tmp_symbol (ty : Ty) (st : St) : Nat × List Instr × St :=
  (st.counter, [.decl st.counter ty],
   { st with
      counter := st.counter + 1
      symbols := (st.counter, ty, false) :: st.symbols })

/-- Modelled from the spec: the generic side-effect remover
(`remove_side_effect`, an external collaborator).  Its expansion is emitted
as a single opaque instruction; the residual expression is a fresh
temporary standing for the value when the result is used, and absent
otherwise. -/
def remove_side_effect (e : Expr) (used addrOf : Bool) (st : St) :
    Expr × List Instr × St :=
  if used then
    (.mk (.symbol st.counter) .nil e.ty none, [.expandSE e true addrOf],
     { st with
        counter := st.counter + 1
        symbols := (st.counter, e.ty, false) :: st.symbols })
  else
    (nilE, [.expandSE e false addrOf], st)

/-- Modelled from the spec: the statement-expression remover
(`remove_statement_expression`, an external collaborator), analogous to the
generic side-effect remover. -/
def remove_statement_expression (e : Expr) (used : Bool) (st : St) :
    Expr × List Instr × St :=
  if used then
    (.mk (.symbol st.counter) .nil e.ty none, [.expandStmtExpr e true],
     { st with
        counter := st.counter + 1
        symbols := (st.counter, e.ty, false) :: st.symbols })
  else
    (nilE, [.expandStmtExpr e false], st)

/-- Modelled from the spec: the function-call remover
(`remove_function_call`, an external collaborator), invoked with the result
kept: it replaces the call with a fresh temporary holding its result. -/
def remove_function_call (e : Expr) (st : St) : Expr × List Instr × St :=
  (.mk (.symbol st.counter) .nil e.ty none, [.expandCall e],
   { st with
      counter := st.counter + 1
      symbols := (st.counter, e.ty, false) :: st.symbols })

/-- Modelled from the spec: `assignment_lhs_needs_temporary` (an external
collaborator) decides whether writing through the lowered left-hand side
could itself have an observable side effect; modelled as false exactly for
direct symbol references. -/
def assignment_lhs_needs_temporary (e : Expr) : Bool :=
  match e with
  | .mk (.symbol _) _ _ _ => false
  | _ => true

/-- Modelled from the spec: the branch-and-join builder
(`generate_ifthenelse`, an external collaborator): the guarded branch to
the true fragment, the jump past the false fragment, and the join label are
abstracted as one structured instruction executing the true fragment when
the condition holds and the false fragment otherwise. -/
def generate_ifthenelse (cond : Expr) (tbr fbr : List Instr) : Instr :=
  .ifThenElse cond tbr fbr

/-- The expression-statement splice used for comma operands: a lowered
operand that is still present is recorded (via the statement converter) as
an expression statement; an absent operand contributes nothing. -/
def emit_expression_statement (x : Expr) : List Instr :=
  if x.isNil then [] else [Instr.exprStmt x]

/-- The void-cast expression-statement splice used for the discarded
branches of a conditional: the lowered branch, when present, is wrapped in
a cast to void and recorded as an expression statement. -/
def emit_void_cast_statement (x : Expr) : List Instr :=
  if x.isNil then [] else [Instr.exprStmt (.mk .typecast (L1 x) .empty none)]

/-- `make_compound_literal`: allocate one fresh temporary of the literal's
type whose storage duration is static unless the enclosing context is
ordinary block-local; emit its declaration (block-scoped only), lower the
assignment of the literal into it (the statement converter splice), and
register a scope-exit dead marker (block-scoped only).  Returns a bare
reference to the temporary tagged with the literal's source location. -/
def make_compound_literal (e : Expr) (st : St) : Expr × List Instr × St :=
  let loc := find_source_location e
  let n := st.counter
  let isStatic : Bool :=
    match st.lifetime with
    | .automaticLocal => false
    | _ => true
  let st1 : St :=
    { st with counter := n + 1, symbols := (n, e.ty, isStatic) :: st.symbols }
  let result : Expr := .mk (.symbol n) .nil e.ty loc
  let dDecl : List Instr := if isStatic then [] else [Instr.decl n e.ty]
  let st2 : St :=
    if isStatic then st1 else { st1 with scopeExits := n :: st1.scopeExits }
  (result, dDecl ++ [Instr.assign result e], st2)

/-- `rhs.id() == ID_side_effect && statement == ID_function_call`. -/
def isFunctionCall : Expr → Bool
  | .mk (.sideEffect .functionCall) _ _ _ => true
  | _ => false

/-- Clean every operand of a node left to right (each in used context, as
the generic operand recursion of `clean_expr` does), collecting the
re-built operand list, the emitted instructions and the final state. -/
def cleanOpsAux (f : Expr → St → Option (Expr × List Instr × St)) :
    ExprList → St → Option (ExprList × List Instr × St)
  | .nil, st => some (.nil, [], st)
  | .cons e es, st =>
    match f e st with
    | none => none
    | some (e', d1, st1) =>
      match cleanOpsAux f es st1 with
      | none => none
      | some (es', d2, st2) => some (.cons e' es', d1 ++ d2, st2)

/-- The comma loop of `clean_expr` when the result is used: every operand
but the last is lowered in discarded context and its residual, when
present, spliced as an expression statement; the last operand is lowered in
used context and its residual becomes the result. -/
def commaUsedAux (f : Expr → Bool → St → Option (Expr × List Instr × St)) :
    ExprList → St → Option (Expr × List Instr × St)
  | .nil, _ => none
  | .cons a .nil, st => f a true st
  | .cons a (.cons b es), st =>
    match f a false st with
    | none => none
    | some (a', d1, st1) =>
      match commaUsedAux f (.cons b es) st1 with
      | none => none
      | some (r, d2, st2) =>
        some (r, d1 ++ emit_expression_statement a' ++ d2, st2)

/-- The comma loop of `clean_expr` when the result is discarded: every
operand is lowered in discarded context and its residual, when present,
spliced as an expression statement. -/
def commaDiscardAux (f : Expr → St → Option (Expr × List Instr × St)) :
    ExprList → St → Option (List Instr × St)
  | .nil, st => some ([], st)
  | .cons a es, st =>
    match f a st with
    | none => none
    | some (a', d1, st1) =>
      match commaDiscardAux f es st1 with
      | none => none
      | some (d2, st2) =>
        some (d1 ++ emit_expression_statement a' ++ d2, st2)

/-- The comma loop of `clean_expr_address_of`: every operand but the last
is lowered in discarded context and spliced; the surviving last operand is
then re-lowered in address-of context. -/
def commaAddrAux (fv fa : Expr → St → Option (Expr × List Instr × St)) :
    ExprList → St → Option (Expr × List Instr × St)
  | .nil, _ => none
  | .cons a .nil, st => fa a st
  | .cons a (.cons b es), st =>
    match fv a st with
    | none => none
    | some (a', d1, st1) =>
      match commaAddrAux fv fa (.cons b es) st1 with
      | none => none
      | some (r, d2, st2) =>
        some (r, d1 ++ emit_expression_statement a' ++ d2, st2)

/-- Lowering mode selector: ordinary value lowering (`clean_expr`),
address-of lowering (`clean_expr_address_of`), or the GCC conditional
desugarer (`remove_gcc_conditional_expression`). -/
inductive CMode where
  | value
  | addrOf
  | gccCond

/-- The generic tail of `clean_expr` (the code after the kind dispatch):
every operand is lowered in used context; then a side-effect node is
delegated to the generic side-effect remover with the current usage
context, and a compound literal is replaced by its single (now lowered)
operand. -/
def cleanGeneric (rec : CMode → Bool → Expr → St → Option (Expr × List Instr × St))
    (used : Bool) (eid : EId) (ops : ExprList) (ty : Ty) (loc : Option Nat)
    (st : St) : Option (Expr × List Instr × St) :=
  match cleanOpsAux (fun x s => rec .value true x s) ops st with
  | none => none
  | some (ops', d, st1) =>
    match eid with
    | .sideEffect k =>
      let (r, d2, st2) :=
        remove_side_effect (.mk (.sideEffect k) ops' ty loc) used false st1
      some (r, d ++ d2, st2)
    | .compoundLiteral =>
      match ops' with
      | .cons op .nil => some (op, d, st1)
      | _ => none
    | _ => some (.mk eid ops' ty loc, d, st1)

/-- The body of `clean_expr` past its `needs_cleaning` gate, parameterized
by the recursor for nested lowering.  Contract violations
(`PRECONDITION` / `DATA_INVARIANT` / `INVARIANT` aborts: wrong arity,
non-boolean condition) yield `none`. -/
def cleanValue (rec : CMode → Bool → Expr → St → Option (Expr × List Instr × St))
    (used : Bool) (e : Expr) (st : St) : Option (Expr × List Instr × St) :=
  match e with
  | .mk eid ops ty loc =>
    match eid with
    | .and =>
      match rewrite_boolean (.mk .and ops ty loc) with
      | none => none
      | some e' => rec .value used e' st
    | .or =>
      match rewrite_boolean (.mk .or ops ty loc) with
      | none => none
      | some e' => rec .value used e' st
    | .implies =>
      match rewrite_boolean (.mk .implies ops ty loc) with
      | none => none
      | some e' => rec .value used e' st
    | .ifE =>
      match ops with
      | .cons c (.cons t (.cons f .nil)) =>
        match rec .value true c st with
        | none => none
        | some (c', d1, st1) =>
          if !needs_cleaning t && !needs_cleaning f then
            some (.mk .ifE (L3 c' t f) ty loc, d1, st1)
          else if c'.ty = Ty.bool then
            match rec .value used t st1 with
            | none => none
            | some (t', dT, st2) =>
              match rec .value used f st2 with
              | none => none
              | some (f', dF, st3) =>
                if used then
                  let (n, dDecl, st4) := new_tmp_symbol ty st3
                  let sym : Expr := .mk (.symbol n) .nil ty none
                  some (sym,
                    d1 ++ dDecl ++
                      [generate_ifthenelse c'
                        (dT ++ [Instr.assign sym t'])
                        (dF ++ [Instr.assign sym f'])],
                    st4)
                else
                  some (nilE,
                    d1 ++
                      [generate_ifthenelse c'
                        (dT ++ emit_void_cast_statement t')
                        (dF ++ emit_void_cast_statement f')],
                    st3)
          else none
      | _ => none
    | .comma =>
      if used then
        commaUsedAux (fun x u s => rec .value u x s) ops st
      else
        match commaDiscardAux (fun x s => rec .value false x s) ops st with
        | none => none
        | some (d, st1) => some (nilE, d, st1)
    | .typecast =>
      match ops with
      | .cons op .nil =>
        match rec .value used op st with
        | none => none
        | some (op', d, st1) =>
          if op'.isNil then some (nilE, d, st1)
          else some (.mk .typecast (L1 op') ty loc, d, st1)
      | _ => none
    | .sideEffect k =>
      match k with
      | .gccConditional => rec .gccCond true (.mk eid ops ty loc) st
      | .statementExpression =>
        some (remove_statement_expression (.mk eid ops ty loc) used st)
      | .assign =>
        match ops with
        | .cons lhs (.cons rhs .nil) =>
          if isFunctionCall rhs then
            match rec .value true lhs st with
            | none => none
            | some (lhs', d1, st1) =>
              let mu := assignment_lhs_needs_temporary lhs'
              let (rhs2, d2, st2) :=
                if mu then remove_function_call rhs st1
                else (rhs, ([] : List Instr), st1)
              let newLhs := skip_typecast lhs'
              let newRhs := conditional_cast rhs2 newLhs.ty
              some (if used then (if mu then newRhs else lhs') else nilE,
                d1 ++ d2 ++ [Instr.assign newLhs newRhs], st2)
          else
            cleanGeneric rec used eid ops ty loc st
        | _ => none
      | _ => cleanGeneric rec used eid ops ty loc st
    | .fa =>
      if has_subexpr_side_effect (.mk eid ops ty loc) then none
      else cleanGeneric rec used eid ops ty loc st
    | .ex =>
      if has_subexpr_side_effect (.mk eid ops ty loc) then none
      else cleanGeneric rec used eid ops ty loc st
    | .addressOf =>
      match ops with
      | .cons obj .nil =>
        match rec .addrOf true obj st with
        | none => none
        | some (obj', d, st1) =>
          some (.mk .addressOf (L1 obj') ty loc, d, st1)
      | _ => none
    | _ => cleanGeneric rec used eid ops ty loc st

/-- The body of `clean_expr_address_of`, parameterized by the recursor. -/
def cleanAddr (rec : CMode → Bool → Expr → St → Option (Expr × List Instr × St))
    (e : Expr) (st : St) : Option (Expr × List Instr × St) :=
  match e with
  | .mk eid ops ty loc =>
    match eid with
    | .compoundLiteral =>
      match ops with
      | .cons op .nil =>
        match rec .value true op st with
        | none => none
        | some (op', d1, st1) =>
          let (r, d2, st2) := make_compound_literal op' st1
          some (r, d1 ++ d2, st2)
      | _ => none
    | .stringConstant => some (.mk eid ops ty loc, [], st)
    | .index =>
      match ops with
      | .cons arr (.cons idx .nil) =>
        match rec .addrOf true arr st with
        | none => none
        | some (arr', d1, st1) =>
          match rec .value true idx st1 with
          | none => none
          | some (idx', d2, st2) =>
            some (.mk .index (L2 arr' idx') ty loc, d1 ++ d2, st2)
      | _ => none
    | .dereference =>
      match ops with
      | .cons ptr .nil =>
        match rec .value true ptr st with
        | none => none
        | some (ptr', d, st1) =>
          some (.mk .dereference (L1 ptr') ty loc, d, st1)
      | _ => none
    | .comma =>
      commaAddrAux (fun x s => rec .value false x s)
        (fun x s => rec .addrOf true x s) ops st
    | .sideEffect _ =>
      some (remove_side_effect (.mk eid ops ty loc) true true st)
    | _ =>
      match cleanOpsAux (fun x s => rec .addrOf true x s) ops st with
      | none => none
      | some (ops', d, st1) => some (.mk eid ops' ty loc, d, st1)

/-- The body of `remove_gcc_conditional_expression`, parameterized by the
recursor: lower the first operand (so it can be duplicated), build
`if_exprt(conditional_cast(op0, bool), op0, op1)` with the node's type and
source location, and re-dispatch the result through `clean_expr` in used
context. -/
def cleanGcc (rec : CMode → Bool → Expr → St → Option (Expr × List Instr × St))
    (e : Expr) (st : St) : Option (Expr × List Instr × St) :=
  match e with
  | .mk _ (.cons op0 (.cons op1 .nil)) ty loc =>
    match rec .value true op0 st with
    | none => none
    | some (op0', d1, st1) =>
      let ifExpr : Expr :=
        .mk .ifE (L3 (conditional_cast op0' .bool) op0' op1) ty loc
      match rec .value true ifExpr st1 with
      | none => none
      | some (r, d2, st2) => some (r, d1 ++ d2, st2)
  | _ => none

/-- The lowering engine with an explicit recursion bound: value mode is
`clean_expr` (entered through its `needs_cleaning` short-circuit), address
mode is `clean_expr_address_of`, and GCC-conditional mode is
`remove_gcc_conditional_expression`.  Exhausting the bound yields `none`;
any sufficiently large bound gives the source functions' behavior. -/
def cleanCore : Nat → CMode → Bool → Expr → St → Option (Expr × List Instr × St)
  | fuel + 1, .value, used, e, st =>
    match needs_cleaning e with
    | false => some (e, [], st)
    | true => cleanValue (fun m u x s => cleanCore fuel m u x s) used e st
  | 0, .value, _, e, st =>
    match needs_cleaning e with
    | false => some (e, [], st)
    | true => none
  | fuel + 1, .addrOf, _, e, st =>
    cleanAddr (fun m u x s => cleanCore fuel m u x s) e st
  | 0, .addrOf, _, _, _ => none
  | fuel + 1, .gccCond, _, e, st =>
    cleanGcc (fun m u x s => cleanCore fuel m u x s) e st
  | 0, .gccCond, _, _, _ => none

/-- `clean_expr(expr, dest, mode, result_is_used)`: returns the residual
expression, the instructions appended to `dest`, and the updated converter
state. -/
def clean_expr (fuel : Nat) (e : Expr) (used : Bool) (st : St) :
    Option (Expr × List Instr × St) :=
  cleanCore fuel .value used e st

/-- `clean_expr_address_of(expr, dest, mode)`. -/
def clean_expr_address_of (fuel : Nat) (e : Expr) (st : St) :
    Option (Expr × List Instr × St) :=
  cleanCore fuel .addrOf true e st

/-- `remove_gcc_conditional_expression(expr, dest, mode)`. -/
def remove_gcc_conditional_expression (fuel : Nat) (e : Expr) (st : St) :
    Option (Expr × List Instr × St) :=
  cleanCore fuel .gccCond true e st

/-- Membership of an expression in a child list. -/
inductive MemL : Expr → ExprList → Prop where
  | head (e : Expr) (t : ExprList) : MemL e (.cons e t)
  | tail (e h : Expr) (t : ExprList) : MemL e t → MemL e (.cons h t)

/-- Follows the spec's words: reachability from an expression to a
subexpression along a path that never passes through (descends below) a
forall/exists node. -/
inductive ReachNQ : Expr → Expr → Prop where
  | refl (e : Expr) : ReachNQ e e
  | step (e op tgt : Expr) :
      isQuantId e.eid = false → MemL op e.ops → ReachNQ op tgt →
      ReachNQ e tgt

/-- Follows the spec's words: the right-nested conditional chain for an
n-ary `and` built from the last operand leftward — each true branch
continues the chain, each false branch is the constant false, and the empty
chain is the identity constant true. -/
def andChain : ExprList → Expr
  | .nil => trueE
  | .cons a rest => .mk .ifE (L3 a (andChain rest) falseE) .bool none

/-- Follows the spec's words: the dual right-nested conditional chain for
an n-ary `or` — each false branch continues the chain, each true branch is
the constant true, and the empty chain is the identity constant false. -/
def orChain : ExprList → Expr
  | .nil => falseE
  | .cons a rest => .mk .ifE (L3 a trueE (orChain rest)) .bool none

/-- The ids `rewrite_boolean`'s postcondition rules out. -/
def isBoolOpId : EId → Bool
  | .and => true
  | .or => true
  | .implies => true
  | _ => false

/-- An all-fresh converter state in ordinary block-local context. -/
def st0 : St := ⟨0, [], [], .automaticLocal⟩

/-- An all-fresh converter state in non-block-local (file scope) context. -/
def stStatic : St := ⟨0, [], [], .staticGlobal⟩

/-- A boolean symbol reference. -/
def symB (n : Nat) : Expr := .mk (.symbol n) .nil .bool none

/-- An opaque boolean side effect (kind neither assign, call, statement
expression nor GCC conditional). -/
def seOther : Expr := .mk (.sideEffect (.other 0)) .nil .bool none

/-- A GCC conditional expression `a ?: se` whose second operand is a side
effect. -/
def gccEx : Expr := .mk (.sideEffect .gccConditional) (L2 (symB 100) seOther) .bool none

/-- A one-operand comma wrapper (an expression that needs cleaning but
lowers to its pure operand without instructions). -/
def commaOf (e : Expr) : Expr := .mk .comma (L1 e) .bool none

/-- Structural induction principle for child lists (single motive). -/
theorem ExprList.ind (P : ExprList → Prop) (hnil : P .nil)
    (hcons : ∀ e es, P es → P (.cons e es)) : ∀ l, P l
  | .nil => hnil
  | .cons e es => hcons e es (ExprList.ind P hnil hcons es)

/-- An expression that needs no cleaning is returned untouched by
`clean_expr`, with no instructions, at any recursion bound. -/
theorem cleanCore_not_needed (fuel : Nat) (used : Bool) (e : Expr) (st : St)
    (h : needs_cleaning e = false) :
    cleanCore fuel .value used e st = some (e, [], st) := by
  cases fuel <;> simp [cleanCore, h]

/-- `needs_cleaning` on a ternary conditional node. -/
theorem needs_cleaning_if3 (c t f : Expr) (ty : Ty) (loc : Option Nat) :
    needs_cleaning (.mk .ifE (L3 c t f) ty loc) =
      (needs_cleaning c || (needs_cleaning t || needs_cleaning f)) := by
  simp [needs_cleaning, anyNeedsCleaning, isHitId, isQuantId, L3]

/-- The `and` fold always produces a boolean-typed tree. -/
theorem foldAnd_ty : ∀ l, (foldAnd l).ty = Ty.bool := by
  intro l
  induction l using ExprList.ind with
  | hnil => rfl
  | hcons e es ih => simpa [foldAnd] using ih

/-- The `and` fold of the implementation is the spec's right-nested
chain. -/
theorem foldAnd_eq_andChain : ∀ l, foldAnd l = andChain l := by
  intro l
  induction l using ExprList.ind with
  | hnil => rfl
  | hcons e es ih =>
    simp only [foldAnd, andChain]
    rw [foldAnd_ty es, ih]

/-- The `or` fold of the implementation is the spec's right-nested
chain. -/
theorem foldOr_eq_orChain : ∀ l, foldOr l = orChain l := by
  intro l
  induction l using ExprList.ind with
  | hnil => rfl
  | hcons e es ih =>
    simp only [foldOr, orChain]
    rw [ih]
    rfl

/-- C2: `rewrite_boolean`, applied to a boolean-typed and/or/implication
node with boolean operands, rewrites `a ==> b` to the conditional
`a ? b : true`; an n-ary `and` to the right-nested conditional chain
folded from the last operand leftward in which each true branch continues
the chain and each false branch is the constant false; an n-ary `or` to
the dual chain; and the resulting node's id is never and, or, or
implication. -/
theorem rewrite_boolean_spec :
    (∀ a b loc, rewrite_boolean (.mk .implies (L2 a b) .bool loc) =
        some (.mk .ifE (L3 a b trueE) .bool none)) ∧
    (∀ ops loc, allBoolean ops = true →
      rewrite_boolean (.mk .and ops .bool loc) = some (andChain ops)) ∧
    (∀ ops loc, allBoolean ops = true →
      rewrite_boolean (.mk .or ops .bool loc) = some (orChain ops)) ∧
    (∀ e e', rewrite_boolean e = some e' → isBoolOpId e'.eid = false) := by
  refine ⟨fun a b loc => rfl, ?_, ?_, ?_⟩
  · intro ops loc h
    simp [rewrite_boolean, h, foldAnd_eq_andChain]
  · intro ops loc h
    simp [rewrite_boolean, h, foldOr_eq_orChain]
  · intro e e' h
    cases e with
    | mk eid ops ty loc =>
      by_cases hty : ty = Ty.bool
      · subst hty
        cases eid <;> simp [rewrite_boolean] at h
        · obtain ⟨hb, rfl⟩ := h
          cases ops with
          | nil => rfl
          | cons a t => rfl
        · obtain ⟨hb, rfl⟩ := h
          cases ops with
          | nil => rfl
          | cons a t => rfl
        · cases ops with
          | nil => simp at h
          | cons a t =>
            cases t with
            | nil => simp at h
            | cons b t2 =>
              cases t2 with
              | nil =>
                simp at h
                subst h
                rfl
              | cons x t3 => simp at h
      · simp [rewrite_boolean, hty] at h

/-- C2 witness: a concrete binary boolean `and`. -/
theorem rewrite_boolean_spec_witness :
    allBoolean (L2 trueE falseE) = true ∧
    rewrite_boolean (.mk .and (L2 trueE falseE) .bool none) =
      some (andChain (L2 trueE falseE)) :=
  ⟨rfl, rewrite_boolean_spec.2.1 (L2 trueE falseE) none rfl⟩

/-- C10: `rewrite_boolean` on a zero-operand boolean `and` (resp. `or`)
yields the identity constant true (resp. false); on a one-operand node
with boolean operand `a`, both the `and` case and the `or` case yield the
same conditional `a ? true : false`, not the bare operand. -/
theorem rewrite_boolean_degenerate_spec :
    (∀ loc, rewrite_boolean (.mk .and .nil .bool loc) = some trueE) ∧
    (∀ loc, rewrite_boolean (.mk .or .nil .bool loc) = some falseE) ∧
    (∀ a loc, a.ty = Ty.bool →
      rewrite_boolean (.mk .and (L1 a) .bool loc) =
        some (.mk .ifE (L3 a trueE falseE) .bool none) ∧
      rewrite_boolean (.mk .or (L1 a) .bool loc) =
        some (.mk .ifE (L3 a trueE falseE) .bool none)) := by
  refine ⟨fun loc => rfl, fun loc => rfl, ?_⟩
  intro a loc h
  constructor <;> simp [rewrite_boolean, allBoolean, L1, h, foldAnd, foldOr] <;>
    rfl

/-- C10 witness: a concrete boolean symbol operand. -/
theorem rewrite_boolean_degenerate_spec_witness :
    (symB 30).ty = Ty.bool ∧
    rewrite_boolean (.mk .and (L1 (symB 30)) .bool none) =
      some (.mk .ifE (L3 (symB 30) trueE falseE) .bool none) :=
  ⟨rfl, (rewrite_boolean_degenerate_spec.2.2 (symB 30) none rfl).1⟩

/-- C9: `clean_expr` on an expression of kind forall or exists returns the
node (body included) unchanged, appends no instruction, and changes no
state — in particular it hoists nothing out of the quantifier body into a
temporary. -/
theorem clean_expr_quantifier_spec :
    ∀ fuel e used st, (e.eid = EId.fa ∨ e.eid = EId.ex) →
      clean_expr fuel e used st = some (e, [], st) := by
  intro fuel e used st h
  have hnc : needs_cleaning e = false := by
    cases e with
    | mk eid ops ty loc =>
      rcases h with h | h <;>
        (simp only [Expr.eid] at h; subst h;
         simp [needs_cleaning, isHitId, isQuantId])
  exact cleanCore_not_needed fuel used e st hnc

/-- C9 witness: a forall whose body is a side effect, lowered in used
context with zero recursion budget. -/
theorem clean_expr_quantifier_spec_witness :
    ((Expr.mk .fa (L1 seOther) .bool none).eid = EId.fa ∨
      (Expr.mk .fa (L1 seOther) .bool none).eid = EId.ex) ∧
    clean_expr 0 (.mk .fa (L1 seOther) .bool none) true st0 =
      some (.mk .fa (L1 seOther) .bool none, [], st0) :=
  ⟨Or.inl rfl,
   clean_expr_quantifier_spec 0 (.mk .fa (L1 seOther) .bool none) true st0
     (Or.inl rfl)⟩

mutual
/-- `needs_cleaning` is reachability (never through a quantifier) of a
side-effect/compound-literal/comma node: expression side. -/
theorem needs_cleaning_reach (e : Expr) :
    needs_cleaning e = true ↔
      ∃ tgt, ReachNQ e tgt ∧ isHitId tgt.eid = true := by
  cases e with
  | mk eid ops ty loc =>
    constructor
    · intro h
      simp only [needs_cleaning, Bool.or_eq_true, Bool.and_eq_true,
        Bool.not_eq_true'] at h
      rcases h with hit | ⟨hq, ha⟩
      · exact ⟨.mk eid ops ty loc, .refl _, hit⟩
      · obtain ⟨op, tgt, mem, reach, hhit⟩ := (anyNC_reach ops).1 ha
        exact ⟨tgt, .step (.mk eid ops ty loc) op tgt hq mem reach, hhit⟩
    · rintro ⟨tgt, reach, hhit⟩
      cases reach with
      | refl =>
        simp only [Expr.eid] at hhit
        simp [needs_cleaning, hhit]
      | step e op tgt hq mem reach2 =>
        have ha : anyNeedsCleaning ops = true :=
          (anyNC_reach ops).2 ⟨op, tgt, mem, reach2, hhit⟩
        simp only [Expr.eid] at hq
        simp [needs_cleaning, ha, hq]

/-- `needs_cleaning` is reachability of a hit node: child-list side. -/
theorem anyNC_reach (l : ExprList) :
    anyNeedsCleaning l = true ↔
      ∃ op tgt, MemL op l ∧ ReachNQ op tgt ∧ isHitId tgt.eid = true := by
  cases l with
  | nil =>
    constructor
    · intro h
      simp [anyNeedsCleaning] at h
    · rintro ⟨op, tgt, mem, -, -⟩
      cases mem
  | cons e es =>
    constructor
    · intro h
      simp only [anyNeedsCleaning, Bool.or_eq_true] at h
      rcases h with he | hes
      · obtain ⟨tgt, reach, hhit⟩ := (needs_cleaning_reach e).1 he
        exact ⟨e, tgt, .head e es, reach, hhit⟩
      · obtain ⟨op, tgt, mem, reach, hhit⟩ := (anyNC_reach es).1 hes
        exact ⟨op, tgt, .tail op e es mem, reach, hhit⟩
    · rintro ⟨op, tgt, mem, reach, hhit⟩
      cases mem with
      | head =>
        have he : needs_cleaning e = true :=
          (needs_cleaning_reach e).2 ⟨tgt, reach, hhit⟩
        simp [anyNeedsCleaning, he]
      | tail _ _ m =>
        have hes : anyNeedsCleaning es = true :=
          (anyNC_reach es).2 ⟨op, tgt, m, reach, hhit⟩
        simp [anyNeedsCleaning, hes]
end

/-- C3: `needs_cleaning` returns true exactly when the expression itself,
or some subexpression reachable without passing through a forall/exists
node, is a side effect, compound literal or comma; and a forall/exists
node is never reported, regardless of its body.  (`needs_cleaning` is a
pure function of the tree: it has no side effects by construction.) -/
theorem needs_cleaning_spec :
    (∀ e, needs_cleaning e = true ↔
      ∃ tgt, ReachNQ e tgt ∧ isHitId tgt.eid = true) ∧
    (∀ e, isQuantId e.eid = true → needs_cleaning e = false) := by
  refine ⟨needs_cleaning_reach, ?_⟩
  intro e hq
  cases e with
  | mk eid ops ty loc =>
    simp only [Expr.eid] at hq
    cases eid <;> simp [isQuantId] at hq <;>
      simp [needs_cleaning, isHitId, isQuantId]

/-- C3 witness: a forall with a side-effecting body is not reported. -/
theorem needs_cleaning_spec_witness :
    isQuantId (Expr.mk .fa (L1 seOther) .bool none).eid = true ∧
    needs_cleaning (.mk .fa (L1 seOther) .bool none) = false :=
  ⟨rfl, needs_cleaning_spec.2 (.mk .fa (L1 seOther) .bool none) rfl⟩

/-- C8: `make_compound_literal` allocates exactly one fresh temporary of
the literal's type, static exactly when the enclosing context is not
ordinary block-local; a block-scoped temporary gets an immediate declare
instruction and a registered scope-exit (dead) marker, a static one gets
neither; and the function returns a bare reference to the temporary tagged
with the original expression's source location. -/
theorem make_compound_literal_spec :
    ∀ e st,
      (st.lifetime = Lifetime.automaticLocal →
        make_compound_literal e st =
          (.mk (.symbol st.counter) .nil e.ty (find_source_location e),
           [Instr.decl st.counter e.ty,
            Instr.assign
              (.mk (.symbol st.counter) .nil e.ty (find_source_location e)) e],
           { counter := st.counter + 1,
             symbols := (st.counter, e.ty, false) :: st.symbols,
             scopeExits := st.counter :: st.scopeExits,
             lifetime := st.lifetime })) ∧
      (st.lifetime ≠ Lifetime.automaticLocal →
        make_compound_literal e st =
          (.mk (.symbol st.counter) .nil e.ty (find_source_location e),
           [Instr.assign
              (.mk (.symbol st.counter) .nil e.ty (find_source_location e)) e],
           { counter := st.counter + 1,
             symbols := (st.counter, e.ty, true) :: st.symbols,
             scopeExits := st.scopeExits,
             lifetime := st.lifetime })) := by
  intro e st
  constructor
  · intro h
    simp [make_compound_literal, h]
  · intro h
    cases hl : st.lifetime with
    | automaticLocal => exact absurd hl h
    | threadLocal => simp [make_compound_literal, hl]
    | staticGlobal => simp [make_compound_literal, hl]

/-- C8 witness: one block-local and one file-scope allocation. -/
theorem make_compound_literal_spec_witness :
    st0.lifetime = Lifetime.automaticLocal ∧
    make_compound_literal (symB 40) st0 =
      (.mk (.symbol 0) .nil Ty.bool none,
       [Instr.decl 0 Ty.bool,
        Instr.assign (.mk (.symbol 0) .nil Ty.bool none) (symB 40)],
       { counter := 1, symbols := [(0, Ty.bool, false)], scopeExits := [0],
         lifetime := Lifetime.automaticLocal }) ∧
    stStatic.lifetime ≠ Lifetime.automaticLocal ∧
    make_compound_literal (symB 40) stStatic =
      (.mk (.symbol 0) .nil Ty.bool none,
       [Instr.assign (.mk (.symbol 0) .nil Ty.bool none) (symB 40)],
       { counter := 1, symbols := [(0, Ty.bool, true)], scopeExits := [],
         lifetime := Lifetime.staticGlobal }) :=
  ⟨rfl, (make_compound_literal_spec (symB 40) st0).1 rfl, by decide,
   (make_compound_literal_spec (symB 40) stStatic).2 (by decide)⟩

/-- C5: lowering a conditional first lowers the condition in used context;
if afterwards neither branch needs cleaning, lowering stops at once — the
branches are untouched, no temporary is allocated, and nothing beyond the
condition's own instructions (in particular no branch-and-join construct)
is emitted. -/
theorem clean_expr_if_condition_first_spec :
    ∀ fuel c t f ty loc used st c' d1 st1,
      clean_expr fuel c true st = some (c', d1, st1) →
      needs_cleaning t = false → needs_cleaning f = false →
      clean_expr (fuel + 1) (.mk .ifE (L3 c t f) ty loc) used st =
        some (.mk .ifE (L3 c' t f) ty loc, d1, st1) := by
  intro fuel c t f ty loc used st c' d1 st1 hc ht hf
  simp only [clean_expr] at hc
  by_cases hnc : needs_cleaning (.mk .ifE (L3 c t f) ty loc) = true
  · simp only [clean_expr, cleanCore, hnc]
    simp only [cleanValue, L3, L2, L1]
    rw [hc, ht, hf]
    simp
  · have hnc2 : needs_cleaning (.mk .ifE (L3 c t f) ty loc) = false :=
      Bool.not_eq_true _ ▸ hnc
    have hcF : needs_cleaning c = false := by
      rw [needs_cleaning_if3] at hnc2
      rcases Bool.or_eq_false_iff.1 hnc2 with ⟨h1, -⟩
      exact h1
    rw [cleanCore_not_needed fuel true c st hcF] at hc
    obtain ⟨rfl, rfl, rfl⟩ : c = c' ∧ [] = d1 ∧ st = st1 := by
      injection hc with h1
      injection h1 with ha hb
      injection hb with hb1 hb2
      exact ⟨ha, hb1, hb2⟩
    exact cleanCore_not_needed (fuel + 1) used _ st hnc2

/-- C5 witness: a conditional whose condition is a comma needing cleaning
and whose branches are pure symbols. -/
theorem clean_expr_if_condition_first_spec_witness :
    clean_expr 1 (commaOf (symB 1)) true st0 = some (symB 1, [], st0) ∧
    needs_cleaning (symB 2) = false ∧ needs_cleaning (symB 3) = false ∧
    clean_expr 2 (.mk .ifE (L3 (commaOf (symB 1)) (symB 2) (symB 3)) .bool none)
        true st0 =
      some (.mk .ifE (L3 (symB 1) (symB 2) (symB 3)) .bool none, [], st0) :=
  ⟨rfl, rfl, rfl,
   clean_expr_if_condition_first_spec 1 (commaOf (symB 1)) (symB 2) (symB 3)
     .bool none true st0 (symB 1) [] st0 rfl rfl rfl⟩

/-- C4: lowering a conditional with used result whose branches need
cleaning allocates exactly one temporary of the conditional's type,
appends an assignment of the lowered true branch to it at the end of the
true fragment and of the lowered false branch at the end of the false
fragment, replaces the expression with a bare reference to the temporary,
and emits the branch-and-join construct guarded by the lowered condition
after the condition's instructions and the temporary's declaration. -/
theorem clean_expr_if_used_spec :
    ∀ fuel c t f ty loc st c' d1 st1 t' dT st2 f' dF st3,
      (needs_cleaning t || needs_cleaning f) = true →
      clean_expr fuel c true st = some (c', d1, st1) →
      c'.ty = Ty.bool →
      clean_expr fuel t true st1 = some (t', dT, st2) →
      clean_expr fuel f true st2 = some (f', dF, st3) →
      clean_expr (fuel + 1) (.mk .ifE (L3 c t f) ty loc) true st =
        some (.mk (.symbol st3.counter) .nil ty none,
          d1 ++ [Instr.decl st3.counter ty,
            Instr.ifThenElse c'
              (dT ++ [Instr.assign (.mk (.symbol st3.counter) .nil ty none) t'])
              (dF ++ [Instr.assign (.mk (.symbol st3.counter) .nil ty none) f'])],
          { st3 with
            counter := st3.counter + 1
            symbols := (st3.counter, ty, false) :: st3.symbols }) := by
  intro fuel c t f ty loc st c' d1 st1 t' dT st2 f' dF st3 hd hc hb ht hf
  simp only [clean_expr] at hc ht hf
  have hnc : needs_cleaning (.mk .ifE (L3 c t f) ty loc) = true := by
    rw [needs_cleaning_if3, hd]
    simp
  have hbt : (!needs_cleaning t && !needs_cleaning f) = false := by
    cases hT : needs_cleaning t with
    | true => simp [hT]
    | false =>
      have hF : needs_cleaning f = true := by simpa [hT] using hd
      simp [hF]
  simp only [clean_expr, cleanCore, hnc]
  simp only [cleanValue, L3, L2, L1]
  rw [hc]
  simp only [hbt, Bool.false_eq_true, if_false, hb, if_true]
  simp only [ht, hf]
  simp [new_tmp_symbol, generate_ifthenelse]

/-- C4 witness: condition and false branch pure, true branch a comma. -/
theorem clean_expr_if_used_spec_witness :
    (needs_cleaning (commaOf (symB 11)) || needs_cleaning (symB 12)) = true ∧
    clean_expr 2 (symB 10) true st0 = some (symB 10, [], st0) ∧
    (symB 10).ty = Ty.bool ∧
    clean_expr 2 (commaOf (symB 11)) true st0 = some (symB 11, [], st0) ∧
    clean_expr 2 (symB 12) true st0 = some (symB 12, [], st0) ∧
    clean_expr 3 (.mk .ifE (L3 (symB 10) (commaOf (symB 11)) (symB 12)) .bool none)
        true st0 =
      some (.mk (.symbol 0) .nil .bool none,
        [Instr.decl 0 .bool,
         Instr.ifThenElse (symB 10)
           [Instr.assign (.mk (.symbol 0) .nil .bool none) (symB 11)]
           [Instr.assign (.mk (.symbol 0) .nil .bool none) (symB 12)]],
        ⟨1, [(0, Ty.bool, false)], [], .automaticLocal⟩) :=
  ⟨rfl, rfl, rfl, rfl, rfl,
   clean_expr_if_used_spec 2 (symB 10) (commaOf (symB 11)) (symB 12) .bool none
     st0 (symB 10) [] st0 (symB 11) [] st0 (symB 12) [] st0 rfl rfl rfl rfl rfl⟩

/-- C6: lowering a conditional with discarded result whose branches need
cleaning appends each branch's lowered value (when present) to that
branch's fragment as an expression statement wrapped in a cast to void,
emits the branch-and-join construct, and replaces the whole conditional by
the absent expression. -/
theorem clean_expr_if_discarded_spec :
    ∀ fuel c t f ty loc st c' d1 st1 t' dT st2 f' dF st3,
      (needs_cleaning t || needs_cleaning f) = true →
      clean_expr fuel c true st = some (c', d1, st1) →
      c'.ty = Ty.bool →
      clean_expr fuel t false st1 = some (t', dT, st2) →
      clean_expr fuel f false st2 = some (f', dF, st3) →
      clean_expr (fuel + 1) (.mk .ifE (L3 c t f) ty loc) false st =
        some (nilE,
          d1 ++ [Instr.ifThenElse c'
            (dT ++ emit_void_cast_statement t')
            (dF ++ emit_void_cast_statement f')],
          st3) := by
  intro fuel c t f ty loc st c' d1 st1 t' dT st2 f' dF st3 hd hc hb ht hf
  simp only [clean_expr] at hc ht hf
  have hnc : needs_cleaning (.mk .ifE (L3 c t f) ty loc) = true := by
    rw [needs_cleaning_if3, hd]
    simp
  have hbt : (!needs_cleaning t && !needs_cleaning f) = false := by
    cases hT : needs_cleaning t with
    | true => simp [hT]
    | false =>
      have hF : needs_cleaning f = true := by simpa [hT] using hd
      simp [hF]
  simp only [clean_expr, cleanCore, hnc]
  simp only [cleanValue, L3, L2, L1]
  rw [hc]
  simp only [hbt, Bool.false_eq_true, if_false, hb, if_true]
  simp only [ht, hf]
  simp [generate_ifthenelse]

/-- C6 witness: true branch a comma (lowering to an absent value, hence no
void-cast statement), false branch a pure symbol (recorded as a void-cast
statement). -/
theorem clean_expr_if_discarded_spec_witness :
    (needs_cleaning (commaOf (symB 11)) || needs_cleaning (symB 12)) = true ∧
    clean_expr 2 (symB 10) true st0 = some (symB 10, [], st0) ∧
    clean_expr 2 (commaOf (symB 11)) false st0 =
      some (nilE, [Instr.exprStmt (symB 11)], st0) ∧
    clean_expr 2 (symB 12) false st0 = some (symB 12, [], st0) ∧
    clean_expr 3 (.mk .ifE (L3 (symB 10) (commaOf (symB 11)) (symB 12)) .bool none)
        false st0 =
      some (nilE,
        [Instr.ifThenElse (symB 10)
          [Instr.exprStmt (symB 11)]
          [Instr.exprStmt (.mk .typecast (L1 (symB 12)) .empty none)]],
        st0) :=
  ⟨rfl, rfl, rfl, rfl,
   clean_expr_if_discarded_spec 2 (symB 10) (commaOf (symB 11)) (symB 12) .bool
     none st0 (symB 10) [] st0 nilE [Instr.exprStmt (symB 11)] st0 (symB 12) []
     st0 rfl rfl rfl rfl rfl⟩

/-- `needs_cleaning` is always true on a comma node. -/
theorem needs_cleaning_comma (ops : ExprList) (ty : Ty) (loc : Option Nat) :
    needs_cleaning (.mk .comma ops ty loc) = true := by
  simp [needs_cleaning, isHitId]

/-- Unfolding `clean_expr` on a comma node in used context. -/
theorem clean_expr_comma_used_unfold (fuel : Nat) (ops : ExprList) (ty : Ty)
    (loc : Option Nat) (st : St) :
    clean_expr (fuel + 1) (.mk .comma ops ty loc) true st =
      commaUsedAux (fun x u s => cleanCore fuel .value u x s) ops st := by
  simp only [clean_expr, cleanCore, needs_cleaning_comma]
  simp [cleanValue]

/-- Unfolding `clean_expr` on a comma node in discarded context. -/
theorem clean_expr_comma_discarded_unfold (fuel : Nat) (ops : ExprList)
    (ty : Ty) (loc : Option Nat) (st : St) :
    clean_expr (fuel + 1) (.mk .comma ops ty loc) false st =
      (commaDiscardAux (fun x s => cleanCore fuel .value false x s) ops st).map
        (fun p => (nilE, p.1, p.2)) := by
  simp only [clean_expr, cleanCore, needs_cleaning_comma]
  simp only [cleanValue]
  cases commaDiscardAux (fun x s => cleanCore fuel .value false x s) ops st with
  | none => simp
  | some p => simp

/-- One unfolding step of the discarded-context comma loop. -/
theorem commaDiscardAux_cons (f : Expr → St → Option (Expr × List Instr × St))
    (a : Expr) (rest : ExprList) (st : St) :
    commaDiscardAux f (.cons a rest) st =
      match f a st with
      | none => none
      | some (a', d1, st1) =>
        match commaDiscardAux f rest st1 with
        | none => none
        | some (d2, st2) =>
          some (d1 ++ emit_expression_statement a' ++ d2, st2) := rfl

/-- C7: lowering a comma expression lowers every operand but the last in
discarded context, left to right, splicing each present residual as an
expression statement; the last operand is lowered in the original usage
context and its residual becomes the result; with the result discarded the
last operand is lowered as discarded too (its residual also spliced when
present) and the whole expression becomes the absent expression. -/
theorem clean_expr_comma_spec :
    (∀ fuel op b es ty loc st op' d1 st1 r d2 st2,
      clean_expr (fuel + 1) op false st = some (op', d1, st1) →
      clean_expr (fuel + 1 + 1) (.mk .comma (.cons b es) ty loc) true st1 =
        some (r, d2, st2) →
      clean_expr (fuel + 1 + 1) (.mk .comma (.cons op (.cons b es)) ty loc)
          true st =
        some (r, d1 ++ emit_expression_statement op' ++ d2, st2)) ∧
    (∀ fuel a ty loc st,
      clean_expr (fuel + 1) (.mk .comma (L1 a) ty loc) true st =
        clean_expr fuel a true st) ∧
    (∀ fuel op b es ty loc st op' d1 st1 r d2 st2,
      clean_expr (fuel + 1) op false st = some (op', d1, st1) →
      clean_expr (fuel + 1 + 1) (.mk .comma (.cons b es) ty loc) false st1 =
        some (r, d2, st2) →
      clean_expr (fuel + 1 + 1) (.mk .comma (.cons op (.cons b es)) ty loc)
          false st =
        some (nilE, d1 ++ emit_expression_statement op' ++ d2, st2)) ∧
    (∀ fuel a ty loc st a' d1 st1,
      clean_expr fuel a false st = some (a', d1, st1) →
      clean_expr (fuel + 1) (.mk .comma (L1 a) ty loc) false st =
        some (nilE, d1 ++ emit_expression_statement a', st1)) ∧
    (∀ fuel ops ty loc st r d st',
      clean_expr fuel (.mk .comma ops ty loc) false st = some (r, d, st') →
      r = nilE) := by
  refine ⟨?_, ?_, ?_, ?_, ?_⟩
  · intro fuel op b es ty loc st op' d1 st1 r d2 st2 h1 h2
    rw [clean_expr_comma_used_unfold] at h2 ⊢
    simp only [clean_expr] at h1
    simp only [commaUsedAux, h1, h2]
  · intro fuel a ty loc st
    rw [clean_expr_comma_used_unfold]
    simp only [commaUsedAux, L1, clean_expr]
  · intro fuel op b es ty loc st op' d1 st1 r d2 st2 h1 h2
    rw [clean_expr_comma_discarded_unfold] at h2 ⊢
    simp only [clean_expr] at h1
    cases haux : commaDiscardAux
        (fun x s => cleanCore (fuel + 1) .value false x s) (.cons b es) st1 with
    | none => rw [haux] at h2; simp at h2
    | some p =>
      cases p with
      | mk pd ps =>
        rw [haux] at h2
        simp only [Option.map, Option.some.injEq, Prod.mk.injEq] at h2
        obtain ⟨h2a, h2b, h2c⟩ := h2
        subst h2a
        subst h2b
        subst h2c
        rw [commaDiscardAux_cons]
        simp only [h1]
        rw [haux]
        simp
  · intro fuel a ty loc st a' d1 st1 h1
    rw [clean_expr_comma_discarded_unfold]
    simp only [clean_expr] at h1
    simp only [commaDiscardAux, L1, h1]
    simp
  · intro fuel ops ty loc st r d st' h
    cases fuel with
    | zero =>
      simp [clean_expr, cleanCore, needs_cleaning_comma] at h
    | succ fuel =>
      rw [clean_expr_comma_discarded_unfold] at h
      cases haux : commaDiscardAux
          (fun x s => cleanCore fuel .value false x s) ops st with
      | none => rw [haux] at h; simp at h
      | some p =>
        cases p with
        | mk pd ps =>
          rw [haux] at h
          simp only [Option.map, Option.some.injEq, Prod.mk.injEq] at h
          exact h.1.symm

/-- C7 witness: `(a, b)` with the result used — an expression statement
for `a`, residual `b`. -/
theorem clean_expr_comma_spec_witness :
    clean_expr 1 (symB 21) false st0 = some (symB 21, [], st0) ∧
    clean_expr 2 (.mk .comma (.cons (symB 22) .nil) .bool none) true st0 =
      some (symB 22, [], st0) ∧
    clean_expr 2 (.mk .comma (.cons (symB 21) (.cons (symB 22) .nil)) .bool none)
        true st0 =
      some (symB 22, [Instr.exprStmt (symB 21)], st0) :=
  ⟨rfl, rfl,
   clean_expr_comma_spec.1 0 (symB 21) (symB 22) .nil .bool none st0 (symB 21)
     [] st0 (symB 22) [] st0 rfl rfl⟩

/-- C1 counterexample: with `result_is_used = false`, lowering the GCC
conditional `a ?: se` (where `se` is a side effect) allocates a temporary
for the node's own value and returns a reference to it — the residual is
not absent and the temporary counter grew from 0 to 2. -/
theorem clean_expr_discarded_counterexample :
    (clean_expr 10 gccEx false st0).map (fun p => p.1) =
      some (.mk (.symbol 1) .nil .bool none) ∧
    (clean_expr 10 gccEx false st0).map (fun p => (p.1.isNil, p.2.2.counter)) =
      some (false, 2) ∧
    st0.counter = 0 :=
  ⟨rfl, rfl, rfl⟩

/-- C1 (amended): with `result_is_used = false`, lowering a comma
expression always leaves an absent residual, and lowering a conditional
whose branches need cleaning leaves an absent residual and allocates no
temporary of its own (the final state is exactly the state left by the
nested sub-lowerings).  The claim's universal form fails: an expression
that needs no cleaning is returned unchanged, a compound literal is
replaced by its operand, and a GCC conditional expression is lowered as if
its result were used, allocating a temporary for its own value and
returning it as the residual. -/
theorem clean_expr_discarded_spec :
    (∀ fuel ops ty loc st r d st',
      clean_expr fuel (.mk .comma ops ty loc) false st = some (r, d, st') →
      r = nilE) ∧
    (∀ fuel c t f ty loc st r d st',
      (needs_cleaning t || needs_cleaning f) = true →
      clean_expr fuel (.mk .ifE (L3 c t f) ty loc) false st = some (r, d, st') →
      r = nilE) ∧
    (∀ fuel c t f ty loc st c' d1 st1 t' dT st2 f' dF st3,
      (needs_cleaning t || needs_cleaning f) = true →
      clean_expr fuel c true st = some (c', d1, st1) →
      c'.ty = Ty.bool →
      clean_expr fuel t false st1 = some (t', dT, st2) →
      clean_expr fuel f false st2 = some (f', dF, st3) →
      ∀ r d st',
        clean_expr (fuel + 1) (.mk .ifE (L3 c t f) ty loc) false st =
          some (r, d, st') →
        st' = st3) := by
  refine ⟨?_, ?_, ?_⟩
  · intro fuel ops ty loc st r d st' h
    cases fuel with
    | zero => simp [clean_expr, cleanCore, needs_cleaning_comma] at h
    | succ fuel =>
      rw [clean_expr_comma_discarded_unfold] at h
      cases haux : commaDiscardAux
          (fun x s => cleanCore fuel .value false x s) ops st with
      | none => rw [haux] at h; simp at h
      | some p =>
        cases p with
        | mk pd ps =>
          rw [haux] at h
          simp only [Option.map, Option.some.injEq, Prod.mk.injEq] at h
          exact h.1.symm
  · intro fuel c t f ty loc st r d st' hd h
    have hnc : needs_cleaning (.mk .ifE (L3 c t f) ty loc) = true := by
      rw [needs_cleaning_if3, hd]
      simp
    have hbt : (!needs_cleaning t && !needs_cleaning f) = false := by
      cases hT : needs_cleaning t with
      | true => simp [hT]
      | false =>
        have hF : needs_cleaning f = true := by simpa [hT] using hd
        simp [hF]
    cases fuel with
    | zero => simp [clean_expr, cleanCore, hnc] at h
    | succ fuel =>
      simp only [clean_expr, cleanCore, hnc] at h
      simp only [cleanValue, L3, L2, L1, hbt, Bool.false_eq_true, if_false] at h
      cases hcc : cleanCore fuel CMode.value true c st with
      | none => simp only [hcc] at h; exact absurd h (by simp)
      | some q =>
        obtain ⟨c', d1, st1⟩ := q
        simp only [hcc] at h
        by_cases hb : c'.ty = Ty.bool
        · rw [if_pos hb] at h
          cases htl : cleanCore fuel CMode.value false t st1 with
          | none => simp only [htl] at h; exact absurd h (by simp)
          | some q2 =>
            obtain ⟨t', dT, st2⟩ := q2
            simp only [htl] at h
            cases hfl : cleanCore fuel CMode.value false f st2 with
            | none => simp only [hfl] at h; exact absurd h (by simp)
            | some q3 =>
              obtain ⟨f', dF, st3⟩ := q3
              simp only [hfl, Option.some.injEq, Prod.mk.injEq] at h
              exact h.1.symm
        · rw [if_neg hb] at h
          exact absurd h (by simp)
  · intro fuel c t f ty loc st c' d1 st1 t' dT st2 f' dF st3 hd hc hb ht hf
        r d st' h
    simp only [clean_expr] at hc ht hf
    have hnc : needs_cleaning (.mk .ifE (L3 c t f) ty loc) = true := by
      rw [needs_cleaning_if3, hd]
      simp
    have hbt : (!needs_cleaning t && !needs_cleaning f) = false := by
      cases hT : needs_cleaning t with
      | true => simp [hT]
      | false =>
        have hF : needs_cleaning f = true := by simpa [hT] using hd
        simp [hF]
    simp only [clean_expr, cleanCore, hnc] at h
    simp only [cleanValue, L3, L2, L1, hbt, Bool.false_eq_true, if_false] at h
    simp only [hc, if_pos hb, ht, hf, Option.some.injEq, Prod.mk.injEq] at h
    exact h.2.2.symm

/-- C1 witness: a one-operand comma lowered in discarded context. -/
theorem clean_expr_discarded_spec_witness :
    clean_expr 1 (commaOf (symB 5)) false st0 =
      some (nilE, [Instr.exprStmt (symB 5)], st0) ∧ nilE = nilE :=
  ⟨rfl,
   clean_expr_discarded_spec.1 1 (L1 (symB 5)) .bool none st0 nilE
     [Instr.exprStmt (symB 5)] st0 rfl⟩
